/-
Verification of the résumé layout engine in
`backend/services/resume_enhancer.py` (`ResumeEnhancerService`).

The engine is embedded shallowly over `List Char`:
  * lines and texts are lists of characters;
  * Python `str.strip` / `str.rstrip` become `pyStrip` / `pyRstrip`
    (whitespace = the ASCII whitespace characters, which covers every
    character occurring in the inputs considered here);
  * each regular expression of the source is hand-translated to an
    executable scanning function, documented at its definition;
  * the DOCX document is modelled as a record of margins, the default
    font, and an ordered list of styled paragraphs, each a list of runs.

Every definition is translated from the Python source; definitions whose
name starts with `claim` or ends with `Spec`/`Prop` restate a sentence of
the specification for comparison.
-/

import Mathlib

namespace ResumeIQ

/-! ### Character classes

Python `str.strip()` and regex `\s` also accept some non-ASCII
whitespace; the ASCII set below is exact for every string manipulated in
this development. -/

def isPySpace (c : Char) : Bool :=
  c = ' ' || c = '\t' || c = '\n' || c = '\r' || c = '\x0b' || c = '\x0c'

/-- `str.rstrip()` — drop trailing whitespace. -/
def pyRstrip (l : List Char) : List Char :=
  (l.reverse.dropWhile isPySpace).reverse

/-- `str.strip()` — drop leading and trailing whitespace. -/
def pyStrip (l : List Char) : List Char :=
  pyRstrip (l.dropWhile isPySpace)

/-- `not line.strip()` — the blank-line test used throughout the engine. -/
def isBlankLine (l : List Char) : Bool :=
  (pyStrip l).isEmpty

/-! ### Line splitting

`resume_text.split("\n")`.  Python's `split` on a separator returns one
part more than the number of separators; in particular `"".split("\n")`
is `[""]`, never the empty list. -/

def splitNl : List Char → List (List Char)
  | [] => [[]]
  | c :: rest =>
    if c = '\n' then [] :: splitNl rest
    else
      match splitNl rest with
      | [] => [[c]]
      | l :: ls => (c :: l) :: ls

/-- `"\n".join(lines)` — used to state idempotence of normalization. -/
def joinNl : List (List Char) → List Char
  | [] => []
  | [l] => l
  | l :: ls => l ++ '\n' :: joinNl ls

/-! ### `_clean_lines` — collapse runs of blank lines to at most one -/

def cleanLinesAux : Bool → List (List Char) → List (List Char)
  | _, [] => []
  | prevBlank, l :: ls =>
    if isBlankLine l && prevBlank then
      cleanLinesAux prevBlank ls
    else
      l :: cleanLinesAux (isBlankLine l) ls

def clean_lines (ls : List (List Char)) : List (List Char) :=
  cleanLinesAux false ls

/-- Lines 145–146 of `to_docx`: split on newlines, rstrip each line,
collapse blank runs. -/
def normalize (text : List Char) : List (List Char) :=
  clean_lines ((splitNl text).map pyRstrip)

/-! ### Line classifiers (`_is_contact_line`, `_is_section_header`,
`_is_bullet`, `_is_entry_line`) -/

/-- Character class `[\d\s\-().]` of the phone-number regex. -/
def isPhoneTail (c : Char) : Bool :=
  c.isDigit || isPySpace c || c = '-' || c = '(' || c = ')' || c = '.'

/-- `re.search(r"\+?\d[\d\s\-().]{7,}", line)`: the optional `\+?` never
affects whether a match exists, so a match exists exactly at a position
holding a digit followed by at least 7 characters of `[\d\s\-().]`. -/
def phoneAt : List Char → Bool
  | [] => false
  | c :: rest => c.isDigit && decide (7 ≤ (rest.takeWhile isPhoneTail).length)

def hasPhoneRun (l : List Char) : Bool :=
  l.tails.any phoneAt

/-- `\s•\s` — a bullet glyph with whitespace on both sides. -/
def hasSpacedBullet : List Char → Bool
  | a :: b :: c :: rest =>
    (isPySpace a && b = '•' && isPySpace c) || hasSpacedBullet (b :: c :: rest)
  | _ => false

def lowerList (l : List Char) : List Char :=
  l.map Char.toLower

/-- Boolean prefix test. -/
def isPrefixB : List Char → List Char → Bool
  | [], _ => true
  | _ :: _, [] => false
  | a :: as, b :: bs => a = b && isPrefixB as bs

/-- Python's substring operator `w in l`. -/
def isSubstring (w l : List Char) : Bool :=
  l.tails.any (isPrefixB w)

/-- `_is_contact_line`: `"@" in line or re.search(phone) or "linkedin" in
low or "github" in low or re.search(r"\||\s•\s", line)`. -/
def is_contact_line (l : List Char) : Bool :=
  l.contains '@'
    || hasPhoneRun l
    || isSubstring "linkedin".toList (lowerList l)
    || isSubstring "github".toList (lowerList l)
    || (l.contains '|' || hasSpacedBullet l)

/-- `_is_section_header`: stripped line nonempty, at most 45 chars; its
letters (regex `[^A-Za-z]` removed) nonempty, all upper case (`str.isupper`
on a pure-letter string), and at least 3 of them. -/
def is_section_header (l : List Char) : Bool :=
  let stripped := pyStrip l
  if stripped.isEmpty || decide (45 < stripped.length) then false
  else
    let alphaOnly := stripped.filter Char.isAlpha
    if alphaOnly.isEmpty then false
    else alphaOnly.all Char.isUpper && decide (3 ≤ alphaOnly.length)

def bulletGlyphs : List Char := ['•', '-', '–', '*', '·', '▪', '◦', '○']

/-- `re.match(r"^\s{2,}[•\-\–\*]", line)`: with backtracking this matches
iff the line has at least two leading whitespace characters and the first
non-whitespace character is one of `• - – *` (none of these glyphs is
whitespace, so the glyph can only sit at the end of the leading run). -/
def twoSpaceBullet (l : List Char) : Bool :=
  decide (2 ≤ (l.takeWhile isPySpace).length) &&
    (match l.dropWhile isPySpace with
     | g :: _ => g = '•' || g = '-' || g = '–' || g = '*'
     | [] => false)

/-- `_is_bullet`: stripped line starts with a bullet glyph, or the raw
line has 2+ leading spaces followed by one of `• - – *`. -/
def is_bullet (l : List Char) : Bool :=
  (match pyStrip l with
   | c :: _ => bulletGlyphs.contains c
   | [] => false)
    || twoSpaceBullet l

/-- `(19|20)\d{2}` somewhere in the line. -/
def yearAt : List Char → Bool
  | a :: b :: c :: d :: _ =>
    ((a = '1' && b = '9') || (a = '2' && b = '0')) && c.isDigit && d.isDigit
  | _ => false

def hasYear (l : List Char) : Bool :=
  l.tails.any yearAt

/-- The literal alternatives of the date regex, lower-cased (the regex is
compiled with `re.IGNORECASE`). -/
def dateWords : List (List Char) :=
  ["jan", "feb", "mar", "apr", "may", "jun", "jul", "aug", "sep", "oct",
   "nov", "dec", "present", "current"].map String.toList

def hasDate (l : List Char) : Bool :=
  hasYear l || dateWords.any (fun w => isSubstring w (lowerList l))

/-- `_is_entry_line`: a pipe character and a date pattern. -/
def is_entry_line (l : List Char) : Bool :=
  l.contains '|' && hasDate l

/-! ### The classifier state machine of `to_docx` (lines 148–197)

Each iteration of the `while` loop first strips the current line and then
tries, in order: blank, name, contact, section header, bullet, entry,
body.  Every branch handles exactly one line. -/

inductive LineRole where
  | Name | Contact | SectionHeader | Entry | Bullet | Body | Blank
  deriving DecidableEq, Repr

structure ClassifierState where
  nameEmitted : Bool
  contactEmitted : Bool
  deriving DecidableEq, Repr

def classifyLine (s : ClassifierState) (line : List Char) :
    LineRole × ClassifierState :=
  let l := pyStrip line
  if l.isEmpty then (.Blank, s)
  else if !s.nameEmitted then (.Name, { s with nameEmitted := true })
  else if !s.contactEmitted && is_contact_line l then
    (.Contact, { s with contactEmitted := true })
  else if is_section_header l then (.SectionHeader, s)
  else if is_bullet l then (.Bullet, s)
  else if is_entry_line l then (.Entry, s)
  else (.Body, s)

def classifyFrom (s : ClassifierState) : List (List Char) →
    List (LineRole × List Char)
  | [] => []
  | l :: ls =>
    let rs := classifyLine s l
    (rs.1, l) :: classifyFrom rs.2 ls

def classify (lines : List (List Char)) : List (LineRole × List Char) :=
  classifyFrom ⟨false, false⟩ lines

/-- The role sequence the pipeline assigns to a raw text. -/
def rolesOf (text : List Char) : List LineRole :=
  (classify (normalize text)).map Prod.fst

/-! ### The style renderer (`_add_name` … `_add_body_text`)

Font sizes are recorded in half-points (`Pt 10.5` = 21), colors as RGB
numbers, spacing in points.  A run records only what the source sets on
it; `color = none` means the run inherits the document color. -/

inductive Align where
  | left | center
  deriving DecidableEq, Repr

structure Run where
  text : List Char
  bold : Bool
  fontName : String
  sizeHalfPt : Nat
  color : Option Nat
  deriving DecidableEq, Repr

structure Paragraph where
  alignment : Align
  spaceBeforePt : Nat
  spaceAfterPt : Nat
  runs : List Run
  bottomBorder : Bool
  listBullet : Bool
  deriving DecidableEq, Repr

structure Docx where
  marginTopIn : Nat
  marginBottomIn : Nat
  marginLeftIn : Nat
  marginRightIn : Nat
  defaultFontName : String
  defaultSizeHalfPt : Nat
  defaultColor : Nat
  paragraphs : List Paragraph
  deriving DecidableEq, Repr

def pyUpper (l : List Char) : List Char :=
  l.map Char.toUpper

/-- The blank-line branch of the loop: an empty paragraph, 0/0 spacing. -/
def blankParagraph : Paragraph :=
  ⟨.left, 0, 0, [], false, false⟩

/-- `_add_name`: 18 pt bold centered, color `111111`. -/
def add_name (text : List Char) : Paragraph :=
  ⟨.center, 0, 4, [⟨pyStrip text, true, "Calibri", 36, some 0x111111⟩],
   false, false⟩

/-- Separator class `[|•·✦]` of `_add_contact`'s substitution. -/
def isContactSep (c : Char) : Bool :=
  c = '|' || c = '•' || c = '·' || c = '✦'

/-- Termination measure helper: `dropWhile` never lengthens a list. -/
def lenDropWhileLe (p : Char → Bool) (l : List Char) :
    (l.dropWhile p).length ≤ l.length := by
  induction l with
  | nil => simp [List.dropWhile]
  | cons a as ih =>
    simp only [List.dropWhile]
    split
    · exact le_trans ih (by simp)
    · simp

/-- `re.sub(r"\s*[|•·✦]\s*", "  |  ", text)`: replace every
leftmost-first, non-overlapping occurrence of a separator glyph together
with the whitespace around it by `"  |  "`. -/
def contactSub : List Char → List Char
  | [] => []
  | c :: rest =>
    match h : (c :: rest).dropWhile isPySpace with
    | d :: after =>
      if isContactSep d then
        "  |  ".toList ++ contactSub (after.dropWhile isPySpace)
      else
        c :: contactSub rest
    | [] => c :: contactSub rest
termination_by l => l.length
decreasing_by
  · have h1 : (List.dropWhile isPySpace (c :: rest)).length ≤ (c :: rest).length :=
      lenDropWhileLe _ _
    rw [h] at h1
    have h2 : (List.dropWhile isPySpace after).length ≤ after.length :=
      lenDropWhileLe _ _
    simp only [List.length_cons] at h1 ⊢
    omega
  · simp
  · simp

/-- `_add_contact`: 10 pt centered, separators normalized to `"  |  "`,
color `444444`. -/
def add_contact (text : List Char) : Paragraph :=
  ⟨.center, 0, 8, [⟨contactSub (pyStrip text), false, "Calibri", 20, some 0x444444⟩],
   false, false⟩

/-- `_add_section_header`: 11 pt bold upper-cased, color `111111`, with a
bottom border. -/
def add_section_header (text : List Char) : Paragraph :=
  ⟨.left, 10, 3, [⟨pyStrip (pyUpper text), true, "Calibri", 22, some 0x111111⟩],
   true, false⟩

/-- Scan for the leftmost match of `\s*\|\s*`: the returned pair is the
text before the match and the text after it (whitespace around the pipe
is consumed by the match). -/
def findPipeSplit : List Char → List Char → Option (List Char × List Char)
  | _, [] => none
  | acc, c :: rest =>
    match (c :: rest).dropWhile isPySpace with
    | [] => findPipeSplit (c :: acc) rest
    | d :: afterPipe =>
      if d = '|' then some (acc.reverse, afterPipe.dropWhile isPySpace)
      else findPipeSplit (c :: acc) rest

/-- `re.split(r"\s*\|\s*", text, maxsplit=2)`. -/
def splitPipeMax2 (l : List Char) : List (List Char) :=
  match findPipeSplit [] l with
  | none => [l]
  | some (a, r1) =>
    match findPipeSplit [] r1 with
    | none => [a, r1]
    | some (b, r2) => [a, b, r2]

def entrySepRun : Run :=
  ⟨"  |  ".toList, false, "Calibri", 21, some 0x777777⟩

/-- `_add_entry_line`: split on pipes (at most 3 segments); first segment
bold, later segments regular, joined by grey separator runs; a line
without enough segments becomes a single bold run. -/
def add_entry_line (text : List Char) : Paragraph :=
  let parts := splitPipeMax2 (pyStrip text)
  let runs :=
    match parts with
    | p0 :: p1 :: ps =>
      ⟨pyStrip p0, true, "Calibri", 21, none⟩ ::
        (p1 :: ps).flatMap (fun p =>
          [entrySepRun, ⟨pyStrip p, false, "Calibri", 21, none⟩])
    | _ => [⟨pyStrip text, true, "Calibri", 21, none⟩]
  ⟨.left, 5, 1, runs, false, false⟩

/-- `_clean_bullet`: strip the leading run of whitespace/bullet glyphs,
then strip. -/
def clean_bullet (l : List Char) : List Char :=
  pyStrip (l.dropWhile (fun c => isPySpace c || bulletGlyphs.contains c))

/-- `_add_bullet`: a List-Bullet paragraph (the default docx template has
that style, so the `KeyError` fallback never fires), 10.5 pt. -/
def add_bullet (text : List Char) : Paragraph :=
  ⟨.left, 1, 1, [⟨text, false, "Calibri", 21, none⟩], false, true⟩

/-- `_add_body_text`: a plain 10.5 pt paragraph. -/
def add_body_text (text : List Char) : Paragraph :=
  ⟨.left, 1, 1, [⟨text, false, "Calibri", 21, none⟩], false, false⟩

/-- The body of `to_docx`'s `while` loop: one paragraph per line, threading
the two classifier flags. -/
def renderParagraphs : ClassifierState → List (List Char) → List Paragraph
  | _, [] => []
  | s, raw :: ls =>
    let line := pyStrip raw
    if line.isEmpty then
      blankParagraph :: renderParagraphs s ls
    else if !s.nameEmitted then
      add_name line :: renderParagraphs { s with nameEmitted := true } ls
    else if !s.contactEmitted && is_contact_line line then
      add_contact line :: renderParagraphs { s with contactEmitted := true } ls
    else if is_section_header line then
      add_section_header line :: renderParagraphs s ls
    else if is_bullet line then
      add_bullet (clean_bullet line) :: renderParagraphs s ls
    else if is_entry_line line then
      add_entry_line line :: renderParagraphs s ls
    else
      add_body_text line :: renderParagraphs s ls

/-- The paragraph a classified line is rendered to (used to state the
line↔paragraph correspondence). -/
def renderClassified : LineRole → List Char → Paragraph
  | .Blank, _ => blankParagraph
  | .Name, l => add_name (pyStrip l)
  | .Contact, l => add_contact (pyStrip l)
  | .SectionHeader, l => add_section_header (pyStrip l)
  | .Bullet, l => add_bullet (clean_bullet (pyStrip l))
  | .Entry, l => add_entry_line (pyStrip l)
  | .Body, l => add_body_text (pyStrip l)

/-- `to_docx`: margins, default font, then one paragraph per normalized
line. -/
def to_docx (text : List Char) : Docx :=
  ⟨1, 1, 1, 1, "Calibri", 21, 0x222222,
   renderParagraphs ⟨false, false⟩ (normalize text)⟩

/-! ### Specification-side definitions

The following definitions restate sentences of the specification (not the
source); each claim theorem compares them with the embedded code. -/

/-- Spec §4.2: the per-role match conditions, in the spec's own terms,
evaluated against a line and the classifier state. -/
def specRoleCond (s : ClassifierState) (l : List Char) : LineRole → Bool
  | .Blank => (pyStrip l).isEmpty
  | .Name => !s.nameEmitted
  | .Contact => !s.contactEmitted && is_contact_line (pyStrip l)
  | .SectionHeader => is_section_header (pyStrip l)
  | .Bullet => is_bullet (pyStrip l)
  | .Entry => is_entry_line (pyStrip l)
  | .Body => true

/-- Spec §4.2: the fixed precedence order. -/
def specPrecedence : List LineRole :=
  [.Blank, .Name, .Contact, .SectionHeader, .Bullet, .Entry, .Body]

/-- Spec §4.2: first matching role in the precedence list wins (`Body`
always matches, so the default is never used). -/
def specFirstMatching (s : ClassifierState) (l : List Char) : LineRole :=
  (specPrecedence.find? (specRoleCond s l)).getD .Body

/-- Claim C6's phone heuristic: the line contains a run of 8 or more
characters that starts with a digit, the rest drawn from
digits/whitespace/hyphens/dots/parentheses. -/
def ClaimPhoneRun (l : List Char) : Prop :=
  ∃ pre c cs post, l = pre ++ (c :: cs) ++ post ∧ cs.length = 7 ∧
    c.isDigit = true ∧ ∀ x ∈ cs, isPhoneTail x = true

/-- Claim C6's disjunction, read literally: a bare `•` anywhere in the
line counts as a contact separator. -/
def ClaimContactProp (l : List Char) : Prop :=
  '@' ∈ l ∨ ClaimPhoneRun l
    ∨ ("linkedin".toList <:+: lowerList l)
    ∨ ("github".toList <:+: lowerList l)
    ∨ '|' ∈ l ∨ '•' ∈ l

/-- The repaired bullet-separator condition: the `•` must be surrounded by
whitespace (regex `\s•\s`). -/
def SpacedBulletProp (l : List Char) : Prop :=
  ∃ pre a c post, l = pre ++ a :: '•' :: c :: post ∧
    isPySpace a = true ∧ isPySpace c = true

/-- Claim C6 with the bullet condition amended to the whitespace-surrounded
form. -/
def AmendedContactProp (l : List Char) : Prop :=
  '@' ∈ l ∨ ClaimPhoneRun l
    ∨ ("linkedin".toList <:+: lowerList l)
    ∨ ("github".toList <:+: lowerList l)
    ∨ '|' ∈ l ∨ SpacedBulletProp l

/-- Claim C7's year pattern: a four-character window `19xx` or `20xx`
(digits `x`), i.e. a year 1900–2099, somewhere in the line. -/
def YearProp (l : List Char) : Prop :=
  ∃ d1 d2, d1.isDigit = true ∧ d2.isDigit = true ∧
    (['1', '9', d1, d2] <:+: l ∨ ['2', '0', d1, d2] <:+: l)

/-- Claim C7's date pattern: a year, a month abbreviation, or
`Present`/`Current`, case-insensitively. -/
def DateProp (l : List Char) : Prop :=
  YearProp l ∨ ∃ w ∈ dateWords, w <:+: lowerList l

/-- Claim C8: a line is kept unless it is blank and the line immediately
before it (in the original sequence) is blank. -/
def keepLine : Option (List Char) → List Char → Bool
  | none, _ => true
  | some p, c => !(isBlankLine c && isBlankLine p)

/-- Claim C8's description of the normalizer, threading the true previous
line of the input rather than the implementation's flag. -/
def collapseSpec : Option (List Char) → List (List Char) → List (List Char)
  | _, [] => []
  | prev, c :: rest =>
    (if keepLine prev c then [c] else []) ++ collapseSpec (some c) rest

/-- No two adjacent blank lines — the shape normalized output has. -/
def noTwoBlanks : List (List Char) → Bool
  | a :: b :: rest => !(isBlankLine a && isBlankLine b) && noTwoBlanks (b :: rest)
  | _ => true

/-- The worked scenario input of spec §8. -/
def scenarioText : List Char :=
  ("Jane Doe\njane@example.com | (555) 123-4567 | linkedin.com/in/janedoe" ++
   "\n\nSUMMARY\nResults-driven engineer.\n\nEXPERIENCE\n" ++
   "Acme Corp | Senior Engineer | 2019 – Present\n" ++
   "• Led migration of 12 services").toList

/-- The entry-line example of spec §8. -/
def acmeLine : List Char :=
  "Acme Corp | Senior Engineer | 2019 – Present".toList

/-! ### Helper lemmas about the classifier step -/

theorem role_eq_name_iff (s : ClassifierState) (l : List Char) :
    (classifyLine s l).1 = .Name ↔
      ((pyStrip l).isEmpty = false ∧ s.nameEmitted = false) := by
  unfold classifyLine
  cases hb : (pyStrip l).isEmpty <;> cases hn : s.nameEmitted <;>
    cases hc : s.contactEmitted <;> cases hcl : is_contact_line (pyStrip l) <;>
    cases hsh : is_section_header (pyStrip l) <;> cases hbl : is_bullet (pyStrip l) <;>
    cases hel : is_entry_line (pyStrip l) <;>
    simp [hb, hn, hc, hcl, hsh, hbl, hel]

theorem role_eq_contact_iff (s : ClassifierState) (l : List Char) :
    (classifyLine s l).1 = .Contact ↔
      ((pyStrip l).isEmpty = false ∧ s.nameEmitted = true ∧
       s.contactEmitted = false ∧ is_contact_line (pyStrip l) = true) := by
  unfold classifyLine
  cases hb : (pyStrip l).isEmpty <;> cases hn : s.nameEmitted <;>
    cases hc : s.contactEmitted <;> cases hcl : is_contact_line (pyStrip l) <;>
    cases hsh : is_section_header (pyStrip l) <;> cases hbl : is_bullet (pyStrip l) <;>
    cases hel : is_entry_line (pyStrip l) <;>
    simp [hb, hn, hc, hcl, hsh, hbl, hel]

theorem nameEmitted_step (s : ClassifierState) (l : List Char) :
    (classifyLine s l).2.nameEmitted =
      (s.nameEmitted || decide ((classifyLine s l).1 = .Name)) := by
  unfold classifyLine
  cases hb : (pyStrip l).isEmpty <;> cases hn : s.nameEmitted <;>
    cases hc : s.contactEmitted <;> cases hcl : is_contact_line (pyStrip l) <;>
    cases hsh : is_section_header (pyStrip l) <;> cases hbl : is_bullet (pyStrip l) <;>
    cases hel : is_entry_line (pyStrip l) <;>
    simp [hb, hn, hc, hcl, hsh, hbl, hel]

theorem contactEmitted_step (s : ClassifierState) (l : List Char) :
    (classifyLine s l).2.contactEmitted =
      (s.contactEmitted || decide ((classifyLine s l).1 = .Contact)) := by
  unfold classifyLine
  cases hb : (pyStrip l).isEmpty <;> cases hn : s.nameEmitted <;>
    cases hc : s.contactEmitted <;> cases hcl : is_contact_line (pyStrip l) <;>
    cases hsh : is_section_header (pyStrip l) <;> cases hbl : is_bullet (pyStrip l) <;>
    cases hel : is_entry_line (pyStrip l) <;>
    simp [hb, hn, hc, hcl, hsh, hbl, hel]

theorem classifyLine_of_blank (s : ClassifierState) (l : List Char)
    (h : (pyStrip l).isEmpty = true) : classifyLine s l = (.Blank, s) := by
  unfold classifyLine
  simp [h]

theorem classifyLine_initial_nonblank (l : List Char)
    (h : (pyStrip l).isEmpty = false) :
    (classifyLine ⟨false, false⟩ l).1 = .Name := by
  unfold classifyLine
  simp [h]

/-! ### Helper lemmas: at most one Name / Contact -/

theorem count_name_zero (ls : List (List Char)) : ∀ s : ClassifierState,
    s.nameEmitted = true →
    ((classifyFrom s ls).map Prod.fst).count .Name = 0 := by
  induction ls with
  | nil => intro s _; rfl
  | cons l rest ih =>
    intro s hs
    have hrole : (classifyLine s l).1 ≠ .Name := by
      intro h
      rcases (role_eq_name_iff s l).mp h with ⟨_, hn⟩
      rw [hs] at hn
      exact absurd hn (by simp)
    have hnext : (classifyLine s l).2.nameEmitted = true := by
      rw [nameEmitted_step, hs]
      rfl
    simp only [classifyFrom, List.map_cons, List.count_cons]
    rw [ih _ hnext]
    simp [hrole]

theorem count_name_le_one (ls : List (List Char)) : ∀ s : ClassifierState,
    ((classifyFrom s ls).map Prod.fst).count .Name ≤ 1 := by
  induction ls with
  | nil => intro s; simp [classifyFrom]
  | cons l rest ih =>
    intro s
    by_cases h : (classifyLine s l).1 = .Name
    · have hnext : (classifyLine s l).2.nameEmitted = true := by
        rw [nameEmitted_step]
        simp [h]
      simp only [classifyFrom, List.map_cons, List.count_cons]
      rw [count_name_zero _ _ hnext]
      simp [h]
    · simp only [classifyFrom, List.map_cons, List.count_cons]
      have := ih (classifyLine s l).2
      simp [h]
      omega

theorem count_contact_zero (ls : List (List Char)) : ∀ s : ClassifierState,
    s.contactEmitted = true →
    ((classifyFrom s ls).map Prod.fst).count .Contact = 0 := by
  induction ls with
  | nil => intro s _; rfl
  | cons l rest ih =>
    intro s hs
    have hrole : (classifyLine s l).1 ≠ .Contact := by
      intro h
      rcases (role_eq_contact_iff s l).mp h with ⟨_, _, hc, _⟩
      rw [hs] at hc
      exact absurd hc (by simp)
    have hnext : (classifyLine s l).2.contactEmitted = true := by
      rw [contactEmitted_step, hs]
      rfl
    simp only [classifyFrom, List.map_cons, List.count_cons]
    rw [ih _ hnext]
    simp [hrole]

theorem count_contact_le_one (ls : List (List Char)) : ∀ s : ClassifierState,
    ((classifyFrom s ls).map Prod.fst).count .Contact ≤ 1 := by
  induction ls with
  | nil => intro s; simp [classifyFrom]
  | cons l rest ih =>
    intro s
    by_cases h : (classifyLine s l).1 = .Contact
    · have hnext : (classifyLine s l).2.contactEmitted = true := by
        rw [contactEmitted_step]
        simp [h]
      simp only [classifyFrom, List.map_cons, List.count_cons]
      rw [count_contact_zero _ _ hnext]
      simp [h]
    · simp only [classifyFrom, List.map_cons, List.count_cons]
      have := ih (classifyLine s l).2
      simp [h]
      omega


/-! ### Helper lemmas: positions of Name and Contact -/

theorem name_at_first_nonblank (lines : List (List Char)) : ∀ i li,
    lines.get? i = some li → isBlankLine li = false →
    (∀ j lj, j < i → lines.get? j = some lj → isBlankLine lj = true) →
    ((classify lines).map Prod.fst).get? i = some .Name := by
  induction lines with
  | nil => intro i li h _ _; simp at h
  | cons l rest ih =>
    intro i li hget hnb hbefore
    cases i with
    | zero =>
      simp only [List.get?] at hget
      injection hget with heq
      subst heq
      have hrole : (classifyLine ⟨false, false⟩ l).1 = .Name := by
        apply classifyLine_initial_nonblank
        simpa [isBlankLine] using hnb
      simp only [classify, classifyFrom, List.map_cons, List.get?]
      rw [hrole]
    | succ k =>
      have hl : isBlankLine l = true := hbefore 0 l (Nat.succ_pos k) rfl
      have hstep : classifyLine ⟨false, false⟩ l = (.Blank, ⟨false, false⟩) :=
        classifyLine_of_blank _ _ (by simpa [isBlankLine] using hl)
      simp only [classify, classifyFrom, hstep, List.map_cons, List.get?]
      exact ih k li hget hnb
        (fun j lj hj hg => hbefore (j + 1) lj (Nat.succ_lt_succ hj) hg)

theorem contact_has_name_before (lines : List (List Char)) : ∀ j,
    ((classify lines).map Prod.fst).get? j = some .Contact →
    ∃ i, i ≤ j ∧ ((classify lines).map Prod.fst).get? i = some .Name := by
  induction lines with
  | nil => intro j h; simp [classify, classifyFrom] at h
  | cons l rest ih =>
    intro j hj
    by_cases hb : isBlankLine l = true
    · have hstep : classifyLine ⟨false, false⟩ l = (.Blank, ⟨false, false⟩) :=
        classifyLine_of_blank _ _ (by simpa [isBlankLine] using hb)
      cases j with
      | zero =>
        simp only [classify, classifyFrom, hstep, List.map_cons, List.get?] at hj
        cases hj
      | succ k =>
        simp only [classify, classifyFrom, hstep, List.map_cons, List.get?] at hj ⊢
        rcases ih k hj with ⟨i, hik, hname⟩
        exact ⟨i + 1, Nat.succ_le_succ hik, hname⟩
    · have hrole : (classifyLine ⟨false, false⟩ l).1 = .Name := by
        apply classifyLine_initial_nonblank
        simpa [isBlankLine] using (Bool.not_eq_true _).mp hb
      cases j with
      | zero =>
        simp only [classify, classifyFrom, List.map_cons, List.get?] at hj
        rw [hrole] at hj
        cases hj
      | succ k =>
        refine ⟨0, Nat.zero_le _, ?_⟩
        simp only [classify, classifyFrom, List.map_cons, List.get?]
        rw [hrole]

/-! ### Helper lemmas: one paragraph per line -/

theorem classifyFrom_map_snd (ls : List (List Char)) : ∀ s,
    (classifyFrom s ls).map Prod.snd = ls := by
  induction ls with
  | nil => intro s; rfl
  | cons l rest ih =>
    intro s
    simp only [classifyFrom, List.map_cons, Prod.snd]
    rw [ih]

theorem classifyFrom_length (ls : List (List Char)) : ∀ s,
    (classifyFrom s ls).length = ls.length := by
  induction ls with
  | nil => intro s; rfl
  | cons l rest ih =>
    intro s
    simp only [classifyFrom, List.length_cons]
    rw [ih]

theorem renderParagraphs_eq_map (ls : List (List Char)) : ∀ s,
    renderParagraphs s ls =
      (classifyFrom s ls).map (fun p => renderClassified p.1 p.2) := by
  induction ls with
  | nil => intro s; rfl
  | cons l rest ih =>
    intro s
    unfold renderParagraphs classifyFrom classifyLine
    cases hb : (pyStrip l).isEmpty <;> cases hn : s.nameEmitted <;>
      cases hc : s.contactEmitted <;> cases hcl : is_contact_line (pyStrip l) <;>
      cases hsh : is_section_header (pyStrip l) <;> cases hbl : is_bullet (pyStrip l) <;>
      cases hel : is_entry_line (pyStrip l) <;>
      simp [hb, hn, hc, hcl, hsh, hbl, hel, renderClassified, ih]

/-! ### Helper lemmas: blank collapsing -/

theorem cleanAux_eq_collapseSpec (ls : List (List Char)) :
    ∀ (prev : Bool) (popt : Option (List Char)),
    (match popt with
     | none => prev = false
     | some p => isBlankLine p = prev) →
    cleanLinesAux prev ls = collapseSpec popt ls := by
  induction ls with
  | nil => intro prev popt _; cases popt <;> rfl
  | cons c rest ih =>
    intro prev popt hinv
    have hrec : cleanLinesAux (isBlankLine c) rest = collapseSpec (some c) rest :=
      ih (isBlankLine c) (some c) rfl
    cases popt with
    | none =>
      have hprev : prev = false := hinv
      subst hprev
      have hcond : (isBlankLine c && false) = false := Bool.and_false _
      simp only [cleanLinesAux, hcond, Bool.false_eq_true, if_false,
        collapseSpec, keepLine, if_true, List.singleton_append]
      rw [hrec]
    | some p =>
      have hinv' : isBlankLine p = prev := hinv
      cases hskip : (isBlankLine c && prev) with
      | true =>
        have hcb : isBlankLine c = true := by
          cases h : isBlankLine c
          · rw [h] at hskip; simp at hskip
          · rfl
        have hpv : prev = true := by
          cases h : prev
          · rw [h] at hskip; simp at hskip
          · rfl
        have hkeep : keepLine (some p) c = false := by
          simp only [keepLine, hinv', hcb, hpv, Bool.and_self, Bool.not_true]
        have hbc : isBlankLine c = prev := by rw [hcb, hpv]
        simp only [cleanLinesAux, hskip, if_true, collapseSpec, hkeep,
          Bool.false_eq_true, if_false, List.nil_append]
        exact ih prev (some c) hbc
      | false =>
        have hkeep : keepLine (some p) c = true := by
          simp only [keepLine, hinv', hskip, Bool.not_false]
        simp only [cleanLinesAux, hskip, Bool.false_eq_true, if_false,
          collapseSpec, hkeep, if_true, List.singleton_append]
        rw [hrec]


/-! ### Helper lemmas: normalization is idempotent -/

theorem dropWhile_dropWhile (p : Char → Bool) (xs : List Char) :
    (xs.dropWhile p).dropWhile p = xs.dropWhile p := by
  induction xs with
  | nil => rfl
  | cons a as ih =>
    cases h : p a
    · simp [List.dropWhile_cons, h]
    · simp [List.dropWhile_cons, h, ih]

theorem pyRstrip_idem (l : List Char) : pyRstrip (pyRstrip l) = pyRstrip l := by
  unfold pyRstrip
  rw [List.reverse_reverse, dropWhile_dropWhile]

theorem mem_pyRstrip (c : Char) (l : List Char) (h : c ∈ pyRstrip l) : c ∈ l := by
  unfold pyRstrip at h
  rw [List.mem_reverse] at h
  have := (List.dropWhile_sublist (l := l.reverse) isPySpace).subset h
  rwa [List.mem_reverse] at this

theorem splitNl_ne_nil (t : List Char) : splitNl t ≠ [] := by
  induction t with
  | nil => simp [splitNl]
  | cons c rest ih =>
    simp only [splitNl]
    by_cases h : c = '\n'
    · simp [h]
    · simp only [h, if_false]
      cases hs : splitNl rest <;> simp

theorem not_mem_nl_splitNl (t : List Char) : ∀ l ∈ splitNl t, '\n' ∉ l := by
  induction t with
  | nil =>
    intro l hl
    simp [splitNl] at hl
    simp [hl]
  | cons c rest ih =>
    intro l hl
    simp only [splitNl] at hl
    by_cases h : c = '\n'
    · rw [if_pos h] at hl
      rcases List.mem_cons.mp hl with h1 | h1
      · simp [h1]
      · exact ih l h1
    · rw [if_neg h] at hl
      cases hs : splitNl rest with
      | nil => exact absurd hs (splitNl_ne_nil rest)
      | cons x xs =>
        rw [hs] at hl
        rcases List.mem_cons.mp hl with h1 | h1
        · subst h1
          intro hmem
          rcases List.mem_cons.mp hmem with h2 | h2
          · exact h h2.symm
          · exact ih x (hs ▸ List.mem_cons_self x xs) h2
        · exact ih l (hs ▸ List.mem_cons_of_mem x h1)

theorem mem_cleanAux (x : List Char) (ls : List (List Char)) :
    ∀ prev, x ∈ cleanLinesAux prev ls → x ∈ ls := by
  induction ls with
  | nil => intro prev h; exact absurd h (by simp [cleanLinesAux])
  | cons c rest ih =>
    intro prev h
    simp only [cleanLinesAux] at h
    by_cases hc : (isBlankLine c && prev) = true
    · rw [if_pos hc] at h
      exact List.mem_cons_of_mem c (ih prev h)
    · rw [if_neg hc] at h
      rcases List.mem_cons.mp h with h1 | h1
      · exact h1 ▸ List.mem_cons_self c rest
      · exact List.mem_cons_of_mem c (ih (isBlankLine c) h1)

theorem splitNl_no_nl (l : List Char) (h : '\n' ∉ l) : splitNl l = [l] := by
  induction l with
  | nil => rfl
  | cons c rest ih =>
    have hc : c ≠ '\n' := fun hceq => h (hceq ▸ List.mem_cons_self c rest)
    have hrest : '\n' ∉ rest := fun hmem => h (List.mem_cons_of_mem c hmem)
    simp only [splitNl, hc, if_false, ih hrest]

theorem splitNl_append_nl (l rest : List Char) (h : '\n' ∉ l) :
    splitNl (l ++ '\n' :: rest) = l :: splitNl rest := by
  induction l with
  | nil => simp [splitNl]
  | cons c cs ih =>
    have hc : c ≠ '\n' := fun hceq => h (hceq ▸ List.mem_cons_self c cs)
    have hcs : '\n' ∉ cs := fun hmem => h (List.mem_cons_of_mem c hmem)
    have step : splitNl ((c :: cs) ++ '\n' :: rest) =
        match splitNl (cs ++ '\n' :: rest) with
        | [] => [[c]]
        | l :: ls => (c :: l) :: ls := by
      rw [List.cons_append]
      simp only [splitNl, hc, if_false]
    rw [step, ih hcs]

theorem splitNl_joinNl (ls : List (List Char)) (hne : ls ≠ [])
    (h : ∀ l ∈ ls, '\n' ∉ l) : splitNl (joinNl ls) = ls := by
  induction ls with
  | nil => exact absurd rfl hne
  | cons l rest ih =>
    cases rest with
    | nil =>
      simp only [joinNl]
      exact splitNl_no_nl l (h l (List.mem_cons_self l []))
    | cons m ms =>
      have hjoin : joinNl (l :: m :: ms) = l ++ '\n' :: joinNl (m :: ms) := rfl
      rw [hjoin, splitNl_append_nl l _ (h l (List.mem_cons_self l _))]
      rw [ih (by simp) (fun x hx => h x (List.mem_cons_of_mem l hx))]

theorem map_pyRstrip_fixed (ls : List (List Char))
    (h : ∀ x ∈ ls, pyRstrip x = x) : ls.map pyRstrip = ls := by
  induction ls with
  | nil => rfl
  | cons a as ih =>
    simp only [List.map_cons]
    rw [h a (List.mem_cons_self a as),
      ih (fun x hx => h x (List.mem_cons_of_mem a hx))]

theorem mem_normalize_rstripped (t : List Char) (x : List Char)
    (h : x ∈ normalize t) : pyRstrip x = x := by
  unfold normalize clean_lines at h
  have hx : x ∈ (splitNl t).map pyRstrip := mem_cleanAux x _ false h
  rcases List.mem_map.mp hx with ⟨y, _, rfl⟩
  exact pyRstrip_idem y

theorem mem_normalize_no_nl (t : List Char) (x : List Char)
    (h : x ∈ normalize t) : '\n' ∉ x := by
  unfold normalize clean_lines at h
  have hx : x ∈ (splitNl t).map pyRstrip := mem_cleanAux x _ false h
  rcases List.mem_map.mp hx with ⟨y, hy, rfl⟩
  intro hmem
  exact not_mem_nl_splitNl t y hy (mem_pyRstrip _ _ hmem)

theorem normalize_ne_nil (t : List Char) : normalize t ≠ [] := by
  unfold normalize clean_lines
  cases hs : splitNl t with
  | nil => exact absurd hs (splitNl_ne_nil t)
  | cons c cs =>
    simp only [List.map_cons, cleanLinesAux, Bool.and_false, Bool.false_eq_true,
      if_false]
    simp

theorem cleanAux_noTwoBlanks (ls : List (List Char)) : ∀ prev,
    noTwoBlanks (cleanLinesAux prev ls) = true ∧
    (∀ x xs, cleanLinesAux prev ls = x :: xs → prev = true →
      isBlankLine x = false) := by
  induction ls with
  | nil =>
    intro prev
    refine ⟨rfl, ?_⟩
    intro x xs h _
    cases h
  | cons c rest ih =>
    intro prev
    cases hskip : (isBlankLine c && prev) with
    | true =>
      have heq : cleanLinesAux prev (c :: rest) = cleanLinesAux prev rest := by
        simp [cleanLinesAux, hskip]
      constructor
      · rw [heq]; exact (ih prev).1
      · intro x xs h hp
        rw [heq] at h
        exact (ih prev).2 x xs h hp
    | false =>
      have heq : cleanLinesAux prev (c :: rest) =
          c :: cleanLinesAux (isBlankLine c) rest := by
        simp [cleanLinesAux, hskip]
      constructor
      · rw [heq]
        cases hout : cleanLinesAux (isBlankLine c) rest with
        | nil => rfl
        | cons y ys =>
          have h2 := (ih (isBlankLine c)).1
          rw [hout] at h2
          simp only [noTwoBlanks, h2, Bool.and_true]
          cases hc : isBlankLine c
          · simp
          · have hy : isBlankLine y = false :=
              (ih (isBlankLine c)).2 y ys hout hc
            simp [hy]
      · intro x xs h hp
        rw [heq] at h
        injection h with h1 h2
        subst h1
        cases hc : isBlankLine c
        · rfl
        · rw [hc, hp] at hskip
          simp at hskip

theorem cleanAux_fixed (ls : List (List Char)) : ∀ prev,
    noTwoBlanks ls = true →
    (∀ x xs, ls = x :: xs → prev = true → isBlankLine x = false) →
    cleanLinesAux prev ls = ls := by
  induction ls with
  | nil => intro prev _ _; rfl
  | cons c rest ih =>
    intro prev hnb hhead
    have hcond : (isBlankLine c && prev) = false := by
      cases hp : prev
      · simp
      · rw [hhead c rest rfl hp]
        simp
    simp only [cleanLinesAux, hcond, Bool.false_eq_true, if_false]
    congr 1
    apply ih (isBlankLine c)
    · cases rest with
      | nil => rfl
      | cons y ys =>
        simp only [noTwoBlanks, Bool.and_eq_true_iff] at hnb
        exact hnb.2
    · intro x xs hx hc
      subst hx
      simp only [noTwoBlanks, Bool.and_eq_true_iff] at hnb
      have := hnb.1
      rw [hc] at this
      cases hbx : isBlankLine x
      · rfl
      · rw [hbx] at this
        simp at this


/-! ### Helper lemmas: substring scans versus their specifications -/

theorem isPrefixB_iff (w : List Char) : ∀ l, isPrefixB w l = true ↔ w <+: l := by
  induction w with
  | nil =>
    intro l
    simp only [isPrefixB]
    simp [List.nil_prefix]
  | cons a as ih =>
    intro l
    cases l with
    | nil =>
      simp only [isPrefixB]
      constructor
      · intro h; cases h
      · intro h
        have := h.length_le
        simp at this
    | cons b bs =>
      simp only [isPrefixB, Bool.and_eq_true_iff, decide_eq_true_eq,
        List.cons_prefix_cons, ih bs]

theorem isSubstring_iff (w l : List Char) : isSubstring w l = true ↔ w <:+: l := by
  unfold isSubstring
  rw [List.any_eq_true]
  constructor
  · rintro ⟨t, ht, hp⟩
    rw [List.mem_tails] at ht
    exact List.infix_iff_prefix_suffix.mpr ⟨t, (isPrefixB_iff w t).mp hp, ht⟩
  · intro h
    rcases List.infix_iff_prefix_suffix.mp h with ⟨t, hp, hs⟩
    exact ⟨t, (List.mem_tails t l).mpr hs, (isPrefixB_iff w t).mpr hp⟩

theorem hasPhoneRun_iff (l : List Char) : hasPhoneRun l = true ↔ ClaimPhoneRun l := by
  unfold hasPhoneRun ClaimPhoneRun
  rw [List.any_eq_true]
  constructor
  · rintro ⟨t, ht, hp⟩
    rw [List.mem_tails] at ht
    obtain ⟨pre, hpre⟩ := ht
    cases t with
    | nil => cases hp
    | cons c rest =>
      simp only [phoneAt, Bool.and_eq_true_iff, decide_eq_true_eq] at hp
      obtain ⟨hdig, hlen⟩ := hp
      have htw : rest.takeWhile isPhoneTail <+: rest := List.takeWhile_prefix _
      have hlen7 : 7 ≤ rest.length := le_trans hlen htw.length_le
      refine ⟨pre, c, rest.take 7, rest.drop 7, ?_, ?_, hdig, ?_⟩
      · rw [← hpre]
        simp only [List.append_assoc, List.cons_append]
        rw [List.take_append_drop]
      · simp only [List.length_take]
        omega
      · intro x hx
        have h7 : rest.take 7 = (rest.takeWhile isPhoneTail).take 7 := by
          refine (List.IsPrefix.eq_of_length ?_ ?_).symm
          · exact htw.take 7
          · simp only [List.length_take]
            omega
        rw [h7] at hx
        exact List.mem_takeWhile_imp ((List.take_prefix 7 _).subset hx)
  · rintro ⟨pre, c, cs, post, hdecomp, hlen, hdig, hall⟩
    refine ⟨c :: (cs ++ post), ?_, ?_⟩
    · rw [List.mem_tails]
      refine ⟨pre, ?_⟩
      rw [hdecomp]
      simp [List.append_assoc]
    · simp only [phoneAt, Bool.and_eq_true_iff, decide_eq_true_eq]
      refine ⟨hdig, ?_⟩
      rw [List.takeWhile_append_of_pos hall]
      simp only [List.length_append]
      omega

theorem spacedBullet_of_decomp : ∀ (pre : List Char) (a c : Char) (post : List Char),
    isPySpace a = true → isPySpace c = true →
    hasSpacedBullet (pre ++ a :: '•' :: c :: post) = true := by
  intro pre
  induction pre with
  | nil =>
    intro a c post ha hc
    simp [hasSpacedBullet, ha, hc]
  | cons x pre' ih =>
    intro a c post ha hc
    have htail := ih a c post ha hc
    cases hp : pre' ++ a :: '•' :: c :: post with
    | nil =>
      exfalso
      have : (pre' ++ a :: '•' :: c :: post).length = 0 := by rw [hp]; rfl
      simp [List.length_append] at this
    | cons b tail2 =>
      cases tail2 with
      | nil =>
        exfalso
        have : (pre' ++ a :: '•' :: c :: post).length = 1 := by rw [hp]; rfl
        simp [List.length_append] at this
        omega
      | cons d tail3 =>
        rw [hp] at htail
        show hasSpacedBullet (x :: (pre' ++ a :: '•' :: c :: post)) = true
        rw [hp]
        simp only [hasSpacedBullet, htail, Bool.or_true]

theorem decomp_of_spacedBullet : ∀ l : List Char,
    hasSpacedBullet l = true → SpacedBulletProp l := by
  intro l
  induction l with
  | nil => intro h; cases h
  | cons a tail ih =>
    intro h
    cases tail with
    | nil => cases h
    | cons b tail2 =>
      cases tail2 with
      | nil => cases h
      | cons c tail3 =>
        simp only [hasSpacedBullet, Bool.or_eq_true] at h
        rcases h with h1 | h2
        · simp only [Bool.and_eq_true_iff, decide_eq_true_eq] at h1
          exact ⟨[], a, c, tail3, by rw [h1.1.2]; rfl, h1.1.1, h1.2⟩
        · rcases ih h2 with ⟨pre, x, y, post, hd, hx, hy⟩
          exact ⟨a :: pre, x, y, post, by rw [List.cons_append, hd], hx, hy⟩

theorem hasSpacedBullet_iff (l : List Char) :
    hasSpacedBullet l = true ↔ SpacedBulletProp l := by
  constructor
  · exact decomp_of_spacedBullet l
  · rintro ⟨pre, a, c, post, hd, ha, hc⟩
    rw [hd]
    exact spacedBullet_of_decomp pre a c post ha hc


theorem hasYear_iff (l : List Char) : hasYear l = true ↔ YearProp l := by
  unfold hasYear YearProp
  rw [List.any_eq_true]
  constructor
  · rintro ⟨t, ht, hy⟩
    rw [List.mem_tails] at ht
    obtain ⟨pre, hpre⟩ := ht
    cases t with
    | nil => cases hy
    | cons a t1 =>
      cases t1 with
      | nil => cases hy
      | cons b t2 =>
        cases t2 with
        | nil => cases hy
        | cons c t3 =>
          cases t3 with
          | nil => cases hy
          | cons d rest =>
            simp only [yearAt, Bool.and_eq_true_iff, Bool.or_eq_true,
              decide_eq_true_eq] at hy
            obtain ⟨⟨hab, hc⟩, hd⟩ := hy
            refine ⟨c, d, hc, hd, ?_⟩
            rcases hab with ⟨ha, hb⟩ | ⟨ha, hb⟩
            · left
              subst ha; subst hb
              exact ⟨pre, rest, by rw [← hpre]; simp⟩
            · right
              subst ha; subst hb
              exact ⟨pre, rest, by rw [← hpre]; simp⟩
  · rintro ⟨d1, d2, h1, h2, hcase | hcase⟩
    · obtain ⟨pre, post, hdec⟩ := hcase
      refine ⟨'1' :: '9' :: d1 :: d2 :: post, ?_, ?_⟩
      · rw [List.mem_tails]
        exact ⟨pre, by rw [← hdec]; simp⟩
      · simp [yearAt, h1, h2]
    · obtain ⟨pre, post, hdec⟩ := hcase
      refine ⟨'2' :: '0' :: d1 :: d2 :: post, ?_, ?_⟩
      · rw [List.mem_tails]
        exact ⟨pre, by rw [← hdec]; simp⟩
      · simp [yearAt, h1, h2]

theorem hasDate_iff (l : List Char) : hasDate l = true ↔ DateProp l := by
  unfold hasDate DateProp
  rw [Bool.or_eq_true, hasYear_iff, List.any_eq_true]
  apply or_congr Iff.rfl
  constructor
  · rintro ⟨w, hw, hsub⟩
    exact ⟨w, hw, (isSubstring_iff w (lowerList l)).mp hsub⟩
  · rintro ⟨w, hw, hinf⟩
    exact ⟨w, hw, (isSubstring_iff w (lowerList l)).mpr hinf⟩

theorem is_contact_line_iff_amended (l : List Char) :
    is_contact_line l = true ↔ AmendedContactProp l := by
  unfold is_contact_line AmendedContactProp
  simp only [Bool.or_eq_true]
  rw [List.elem_iff, hasPhoneRun_iff, isSubstring_iff, isSubstring_iff,
    List.elem_iff, hasSpacedBullet_iff]
  tauto

theorem is_entry_line_iff (l : List Char) :
    is_entry_line l = true ↔ '|' ∈ l ∧ DateProp l := by
  unfold is_entry_line
  rw [Bool.and_eq_true_iff, List.elem_iff, hasDate_iff]

/-! ### Helper lemmas: every entry line splits into at least two parts -/

theorem mem_dropWhile_of_not (p : Char → Bool) (c : Char) : ∀ l : List Char,
    c ∈ l → p c = false → c ∈ l.dropWhile p := by
  intro l
  induction l with
  | nil => intro h _; cases h
  | cons a as ih =>
    intro hmem hc
    rw [List.dropWhile_cons]
    cases ha : p a
    · simp only [Bool.false_eq_true, if_false]
      exact hmem
    · simp only [if_true]
      rcases List.mem_cons.mp hmem with h1 | h1
      · subst h1
        rw [ha] at hc
        cases hc
      · exact ih h1 hc

theorem mem_pyStrip_of_not (c : Char) (l : List Char)
    (hmem : c ∈ l) (hc : isPySpace c = false) : c ∈ pyStrip l := by
  unfold pyStrip pyRstrip
  rw [List.mem_reverse]
  apply mem_dropWhile_of_not _ _ _ _ hc
  rw [List.mem_reverse]
  exact mem_dropWhile_of_not _ _ _ hmem hc

theorem findPipeSplit_none_no_pipe : ∀ (l : List Char) (acc : List Char),
    findPipeSplit acc l = none → '|' ∉ l := by
  intro l
  induction l with
  | nil => intro acc _ hmem; cases hmem
  | cons c rest ih =>
    intro acc hnone hmem
    cases hd : List.dropWhile isPySpace (c :: rest) with
    | nil =>
      have hin : '|' ∈ List.dropWhile isPySpace (c :: rest) :=
        mem_dropWhile_of_not _ _ _ hmem (by decide)
      rw [hd] at hin
      cases hin
    | cons d after =>
      by_cases hdp : d = '|'
      · subst hdp
        simp only [findPipeSplit, hd, if_pos rfl] at hnone
        cases hnone
      · have hrec : findPipeSplit acc (c :: rest) = findPipeSplit (c :: acc) rest := by
          simp only [findPipeSplit, hd, if_neg hdp]
        rw [hrec] at hnone
        rcases List.mem_cons.mp hmem with h1 | h1
        · have hcp : isPySpace c = false := by rw [← h1]; decide
          rw [List.dropWhile_cons, hcp] at hd
          simp only [Bool.false_eq_true, if_false] at hd
          injection hd with hd1 _
          exact hdp (by rw [← hd1, ← h1])
        · exact ih (c :: acc) hnone h1

theorem splitPipeMax2_len_ge_two (l : List Char) (h : '|' ∈ l) :
    2 ≤ (splitPipeMax2 l).length := by
  unfold splitPipeMax2
  cases hf : findPipeSplit [] l with
  | none => exact absurd h (findPipeSplit_none_no_pipe l [] hf)
  | some pr =>
    obtain ⟨a, r1⟩ := pr
    cases hg : findPipeSplit [] r1 with
    | none => simp [hg]
    | some pr2 =>
      obtain ⟨b, r2⟩ := pr2
      simp [hg]

theorem splitPipeMax2_len_le_three (l : List Char) :
    (splitPipeMax2 l).length ≤ 3 := by
  unfold splitPipeMax2
  cases findPipeSplit [] l with
  | none => simp
  | some pr =>
    obtain ⟨a, r1⟩ := pr
    cases hg : findPipeSplit [] r1 with
    | none => simp [hg]
    | some pr2 =>
      obtain ⟨b, r2⟩ := pr2
      simp [hg]

theorem add_entry_line_bold_head (l : List Char) (h : '|' ∈ l) :
    ∃ p0 p1 ps, splitPipeMax2 (pyStrip l) = p0 :: p1 :: ps ∧
      (add_entry_line l).runs =
        ⟨pyStrip p0, true, "Calibri", 21, none⟩ ::
          (p1 :: ps).flatMap (fun p =>
            [entrySepRun, ⟨pyStrip p, false, "Calibri", 21, none⟩]) := by
  have hps : '|' ∈ pyStrip l := mem_pyStrip_of_not _ _ h (by decide)
  have hlen := splitPipeMax2_len_ge_two _ hps
  cases hsp : splitPipeMax2 (pyStrip l) with
  | nil =>
    rw [hsp] at hlen
    cases hlen
  | cons p0 ps0 =>
    cases ps0 with
    | nil =>
      rw [hsp] at hlen
      simp at hlen
    | cons p1 ps =>
      refine ⟨p0, p1, ps, rfl, ?_⟩
      simp only [add_entry_line, hsp]


theorem role_eq_entry_iff (s : ClassifierState) (l : List Char)
    (hb : (pyStrip l).isEmpty = false) (hn : s.nameEmitted = true)
    (hc : s.contactEmitted = true)
    (hsh : is_section_header (pyStrip l) = false)
    (hbul : is_bullet (pyStrip l) = false) :
    (classifyLine s l).1 = .Entry ↔ is_entry_line (pyStrip l) = true := by
  unfold classifyLine
  cases hel : is_entry_line (pyStrip l) <;>
    simp [hb, hn, hc, hsh, hbul, hel]

/-! ### Claim theorems -/

/-- C1: on the spec's worked scenario (name line, contact line, blank,
SUMMARY, body text, blank, EXPERIENCE, pipe-dated entry, bullet), the
pipeline assigns the role sequence Name, Contact, Blank, SectionHeader,
Body, Blank, SectionHeader, Entry, Bullet, in that order. -/
theorem claim1_scenario_role_sequence :
    rolesOf scenarioText =
      [.Name, .Contact, .Blank, .SectionHeader, .Body, .Blank,
       .SectionHeader, .Entry, .Bullet] := by
  decide

/-- C2: for every classifier state and every line, the classifier's
result is exactly the first matching role of the fixed precedence list
Blank, Name, Contact, SectionHeader, Bullet, Entry, Body — a line
matching several heuristics receives the earliest matching role and no
later rule is consulted. -/
theorem claim2_first_match_precedence (s : ClassifierState) (l : List Char) :
    (classifyLine s l).1 = specFirstMatching s l := by
  unfold classifyLine specFirstMatching specPrecedence specRoleCond
  cases hb : (pyStrip l).isEmpty <;> cases hn : s.nameEmitted <;>
    cases hc : s.contactEmitted <;> cases hcl : is_contact_line (pyStrip l) <;>
    cases hsh : is_section_header (pyStrip l) <;> cases hbl : is_bullet (pyStrip l) <;>
    cases hel : is_entry_line (pyStrip l) <;>
    simp [List.find?, hb, hn, hc, hcl, hsh, hbl, hel]

/-- C3: every classified sequence has at most one Name and at most one
Contact role; the first non-blank line is classified Name regardless of
its content; every Contact role has a Name role at or before it; and the
two state flags are updated monotonically — each is set exactly when the
corresponding role is emitted and never cleared. -/
theorem claim3_at_most_one_name_contact (lines : List (List Char)) :
    ((classify lines).map Prod.fst).count .Name ≤ 1 ∧
    ((classify lines).map Prod.fst).count .Contact ≤ 1 ∧
    (∀ i li, lines.get? i = some li → isBlankLine li = false →
      (∀ j lj, j < i → lines.get? j = some lj → isBlankLine lj = true) →
      ((classify lines).map Prod.fst).get? i = some .Name) ∧
    (∀ j, ((classify lines).map Prod.fst).get? j = some .Contact →
      ∃ i, i ≤ j ∧ ((classify lines).map Prod.fst).get? i = some .Name) ∧
    (∀ (s : ClassifierState) (l : List Char),
      (classifyLine s l).2.nameEmitted
        = (s.nameEmitted || decide ((classifyLine s l).1 = .Name)) ∧
      (classifyLine s l).2.contactEmitted
        = (s.contactEmitted || decide ((classifyLine s l).1 = .Contact))) := by
  refine ⟨count_name_le_one lines _, count_contact_le_one lines _,
    name_at_first_nonblank lines, contact_has_name_before lines,
    fun s l => ⟨nameEmitted_step s l, contactEmitted_step s l⟩⟩

/-- Witness for C3 at the worked scenario: its first line is classified
Name, and the Contact at index 1 is preceded by that Name. -/
theorem claim3_witness :
    ((classify (normalize scenarioText)).map Prod.fst).get? 0 = some .Name ∧
    (∃ i, i ≤ 1 ∧
      ((classify (normalize scenarioText)).map Prod.fst).get? i = some .Name) := by
  constructor
  · exact (claim3_at_most_one_name_contact (normalize scenarioText)).2.2.1
      0 "Jane Doe".toList (by decide) (by decide)
      (fun j lj hj _ => absurd hj (Nat.not_lt_zero j))
  · exact (claim3_at_most_one_name_contact (normalize scenarioText)).2.2.2.1
      1 (by decide)

/-- C4: the output document carries exactly one paragraph per normalized
input line, in the same order — the paragraph list is the image of the
classified line list under the per-role renderer, and the classified
lines are the normalized lines themselves, in order. -/
theorem claim4_one_paragraph_per_line (text : List Char) :
    (to_docx text).paragraphs.length = (normalize text).length ∧
    (to_docx text).paragraphs =
      (classify (normalize text)).map (fun p => renderClassified p.1 p.2) ∧
    (classify (normalize text)).map Prod.snd = normalize text := by
  refine ⟨?_, ?_, classifyFrom_map_snd _ _⟩
  · show (renderParagraphs ⟨false, false⟩ (normalize text)).length = _
    rw [renderParagraphs_eq_map, List.length_map]
    exact classifyFrom_length _ _
  · exact renderParagraphs_eq_map _ _

/-- Counterexample to C5: normalizing the empty text yields one blank
line, not the empty sequence — Python's `"".split("\n")` is `[""]` — and
the conversion of empty input therefore contains one empty paragraph,
not zero. -/
theorem claim5_counterexample :
    normalize "".toList = [[]] ∧ ([[]] : List (List Char)) ≠ [] ∧
    (to_docx "".toList).paragraphs = [blankParagraph] := by
  refine ⟨rfl, by simp, rfl⟩

/-- C5 as amended: the empty input normalizes to a single blank line, and
the conversion yields a document with 1-inch margins, Calibri 10.5 pt
default font, and exactly one empty paragraph. -/
theorem claim5_empty_input_single_blank :
    to_docx "".toList =
      ⟨1, 1, 1, 1, "Calibri", 21, 0x222222, [blankParagraph]⟩ := rfl

/-- Counterexample to C6: the line `a•b` contains the bullet separator
character `•`, so the claim's condition holds, yet `_is_contact_line`
rejects it — the regex `\s•\s` demands whitespace on both sides of the
bullet. -/
theorem claim6_counterexample :
    is_contact_line "a•b".toList = false ∧ ClaimContactProp "a•b".toList := by
  constructor
  · decide
  · exact Or.inr (Or.inr (Or.inr (Or.inr (Or.inr (by decide)))))

/-- C6 as amended: `_is_contact_line` accepts a line iff it contains an
`@`, a digit run of 8+ phone characters, `linkedin` or `github`
case-insensitively, a pipe, or a bullet `•` surrounded by whitespace. -/
theorem claim6_amended_contact_iff (l : List Char) :
    is_contact_line l = true ↔ AmendedContactProp l :=
  is_contact_line_iff_amended l

/-- C7: with name and contact already emitted and the section-header and
bullet heuristics failing, a non-blank line is classified Entry iff it
contains a pipe and a date pattern (a 19xx/20xx year, a month
abbreviation, or Present/Current, case-insensitively); entry rendering
splits on pipes into at most 3 segments, and the worked example renders
as bold first segment, grey separators, regular remaining segments. -/
theorem claim7_entry_detection (s : ClassifierState) (l : List Char)
    (hb : (pyStrip l).isEmpty = false) (hn : s.nameEmitted = true)
    (hc : s.contactEmitted = true)
    (hsh : is_section_header (pyStrip l) = false)
    (hbul : is_bullet (pyStrip l) = false) :
    ((classifyLine s l).1 = .Entry ↔
      ('|' ∈ pyStrip l ∧ DateProp (pyStrip l))) ∧
    (splitPipeMax2 (pyStrip l)).length ≤ 3 ∧
    (add_entry_line acmeLine).runs =
      [⟨"Acme Corp".toList, true, "Calibri", 21, none⟩,
       entrySepRun,
       ⟨"Senior Engineer".toList, false, "Calibri", 21, none⟩,
       entrySepRun,
       ⟨"2019 – Present".toList, false, "Calibri", 21, none⟩] := by
  refine ⟨?_, splitPipeMax2_len_le_three _, by decide⟩
  rw [role_eq_entry_iff s l hb hn hc hsh hbul, is_entry_line_iff]

/-- Witness for C7 at the worked entry line with both flags set. -/
theorem claim7_witness :
    ((classifyLine ⟨true, true⟩ acmeLine).1 = .Entry ↔
      ('|' ∈ pyStrip acmeLine ∧ DateProp (pyStrip acmeLine))) ∧
    (splitPipeMax2 (pyStrip acmeLine)).length ≤ 3 ∧
    (add_entry_line acmeLine).runs =
      [⟨"Acme Corp".toList, true, "Calibri", 21, none⟩,
       entrySepRun,
       ⟨"Senior Engineer".toList, false, "Calibri", 21, none⟩,
       entrySepRun,
       ⟨"2019 – Present".toList, false, "Calibri", 21, none⟩] :=
  claim7_entry_detection ⟨true, true⟩ acmeLine (by decide) rfl rfl
    (by decide) (by decide)

/-- C8: the normalizer drops a line iff it is blank and the line
immediately before it in the input is blank (no other leading/trailing
limits), and `normalize "a\n\n\n\nb"` is exactly `a`, one blank, `b`. -/
theorem claim8_blank_collapsing :
    (∀ ls : List (List Char), clean_lines ls = collapseSpec none ls) ∧
    normalize ("a" ++ "\n" ++ "\n" ++ "\n" ++ "\n" ++ "b").toList =
      ["a".toList, [], "b".toList] := by
  constructor
  · intro ls
    exact cleanAux_eq_collapseSpec ls false none rfl
  · decide

/-- C9: normalization is idempotent — rejoining the normalized lines with
newlines and normalizing again returns the same line sequence. -/
theorem claim9_normalize_idempotent (t : List Char) :
    normalize (joinNl (normalize t)) = normalize t := by
  have hsplit : splitNl (joinNl (normalize t)) = normalize t :=
    splitNl_joinNl _ (normalize_ne_nil t) (fun l hl => mem_normalize_no_nl t l hl)
  have hmap : (normalize t).map pyRstrip = normalize t :=
    map_pyRstrip_fixed _ (fun x hx => mem_normalize_rstripped t x hx)
  have hnb : noTwoBlanks (normalize t) = true := by
    show noTwoBlanks (cleanLinesAux false ((splitNl t).map pyRstrip)) = true
    exact (cleanAux_noTwoBlanks _ false).1
  have hfix : clean_lines (normalize t) = normalize t := by
    unfold clean_lines
    apply cleanAux_fixed _ _ hnb
    intro x xs _ hp
    exact Bool.noConfusion hp
  calc normalize (joinNl (normalize t))
      = clean_lines ((splitNl (joinNl (normalize t))).map pyRstrip) := rfl
    _ = clean_lines ((normalize t).map pyRstrip) := by rw [hsplit]
    _ = clean_lines (normalize t) := by rw [hmap]
    _ = normalize t := hfix

/-- C10: an entry line always contains a pipe, so its pipe split yields
at least two segments and the single-bold-run fallback of
`_add_entry_line` is unreachable: every rendered Entry paragraph starts
with a bold run. -/
theorem claim10_entry_fallback_unreachable (l : List Char)
    (h : is_entry_line l = true) :
    2 ≤ (splitPipeMax2 (pyStrip l)).length ∧
    ∃ r rs, (add_entry_line l).runs = r :: rs ∧ r.bold = true := by
  have hp : '|' ∈ l := by
    unfold is_entry_line at h
    exact List.elem_iff.mp (Bool.and_eq_true_iff.mp h).1
  have hps : '|' ∈ pyStrip l := mem_pyStrip_of_not _ _ hp (by decide)
  refine ⟨splitPipeMax2_len_ge_two _ hps, ?_⟩
  obtain ⟨p0, p1, ps, hsp, hruns⟩ := add_entry_line_bold_head l hp
  exact ⟨_, _, hruns, rfl⟩

/-- Witness for C10 at the worked entry line. -/
theorem claim10_witness :
    2 ≤ (splitPipeMax2 (pyStrip acmeLine)).length ∧
    ∃ r rs, (add_entry_line acmeLine).runs = r :: rs ∧ r.bold = true :=
  claim10_entry_fallback_unreachable acmeLine (by decide)

end ResumeIQ
